import Mathlib

/-!
# Verification of the chat-app core (RSA engine, Hamming(7,4) codec, relay broker)

Shallow embedding of the repository's source files:

* `src/utils/math.js`   — `isPrime`, `gcd` (BigInt arithmetic, modelled on `Nat`;
  the code returns `false` for every input `≤ 1`, so negative BigInts behave
  like `0` and the non-negative domain of the claims is `Nat`).
* `src/unnamed/part_000` — the RSA engine: `select_e`, `mod_inverse` (extended
  Euclid, whose `x0`/`x1` accumulators are genuinely signed, hence `Int`),
  `encrypt_char`, `decrypt_char`, `RSA.generate_rsa_keys`.  The JS code passes
  the numbers around as decimal strings; the string⟷BigInt conversion is
  bijective on canonical decimal forms, so the embedding works with the
  integers themselves.
* `src/utils/hamming.js` — `encodeNibble`, `decodeNibble`, `encodeMessage`,
  `decodeMessage`.  JS strings are modelled as lists of their UTF-16 code
  units (`List Nat`).
* `src/server.js` — the relay broker: the `clients` JS `Map` is modelled as an
  insertion-ordered association list (exactly a JS `Map`'s iteration order),
  and each `switch` case of the `data` handler becomes a function from the
  registry and the parsed record to the new registry plus the list of
  records written to sockets (`sendJson` drops the write when the target
  socket is not writable, as in the source).

Loops of the JS source that are not structurally recursive are embedded with
an explicit fuel parameter so that every definition computes by kernel
reduction; the wrappers supply fuel that provably exceeds the iteration count,
and ran-out-of-fuel branches return the value the loop could only reach that
way (`none` for the searches, `true` for the trial division loop, which is
never hit — see the lemmas).
-/

namespace ChatApp

/-! ## src/utils/math.js -/

/-- The trial-division loop of `isPrime` (`for (let i = 5n; i*i <= num; i += 6n)`).
Fuel decreases by one per iteration while `i` grows by 6; `isPrime` passes
`num` as fuel, which is more than enough (see `trial_loop_true_no_divisor`). -/
def trial_loop (num : Nat) : Nat → Nat → Bool
  | 0, _ => true
  | fuel + 1, i =>
    if i * i ≤ num then
      if num % i = 0 ∨ num % (i + 2) = 0 then false
      else trial_loop num fuel (i + 6)
    else true

/-- `isPrime` from `src/utils/math.js`: 6k±1 wheel trial division. -/
def isPrime (num : Nat) : Bool :=
  if num ≤ 1 then false
  else if num ≤ 3 then true
  else if num % 2 = 0 ∨ num % 3 = 0 then false
  else trial_loop num num 5

/-- The recursion of `gcd` from `src/utils/math.js`
(`b === 0n ? a : gcd(b, a % b)`), with fuel.  `b` strictly decreases, so the
wrapper's fuel `b + 1` always suffices (`gcdJS_eq_gcd`). -/
def gcdJS_loop : Nat → Nat → Nat → Nat
  | 0, a, _ => a
  | fuel + 1, a, b => if b = 0 then a else gcdJS_loop fuel b (a % b)

/-- `gcd` from `src/utils/math.js`. -/
def gcdJS (a b : Nat) : Nat := gcdJS_loop (b + 1) a b

/-! ## src/unnamed/part_000 — the RSA engine -/

/-- The `while (e < phi_n)` search of `select_e`: smallest `e ∈ [2, phi)` with
`gcd(e, phi) = 1`.  One fuel unit per candidate; the wrapper passes `phi`. -/
def select_e_loop (phi : Nat) : Nat → Nat → Option Nat
  | 0, _ => none
  | fuel + 1, e =>
    if e < phi then
      if gcdJS e phi = 1 then some e else select_e_loop phi fuel (e + 1)
    else none

/-- `select_e` from `src/unnamed/part_000`. -/
def select_e (phi : Nat) : Option Nat := select_e_loop phi phi 2

/-- The `while (a > 1n)` loop of `mod_inverse`.  In the source `a` and `m`
are the (non-negative) remainder pair and `x0`, `x1` the signed Bézout
accumulators; one iteration does
`q = a/m; (a, m) = (m, a % m); (x0, x1) = (x1 - q*x0, x0)`.
`m` strictly decreases, so the wrapper's fuel `phi + 1` suffices. -/
def mod_inverse_loop : Nat → Nat → Nat → Int → Int → Option Int
  | 0, _, _, _, _ => none
  | fuel + 1, a, m, x0, x1 =>
    if a > 1 then
      if m = 0 then none
      else mod_inverse_loop fuel m (a % m) (x1 - (a / m : Nat) * x0) x0
    else some x1

/-- `mod_inverse` from `src/unnamed/part_000`: extended Euclid computing the
inverse of `e` modulo `phi_n`, with the final `if (x1 < 0n) x1 += original_phi`
normalisation. -/
def mod_inverse (e phi : Nat) : Option Int :=
  if phi = 1 then some 0
  else
    match mod_inverse_loop (phi + 1) e phi 0 1 with
    | none => none
    | some x1 => some (if x1 < 0 then x1 + (phi : Int) else x1)

/-- `encrypt_char`: `m ** e % n` on BigInts. -/
def encrypt_char (char_code e n : Nat) : Nat := char_code ^ e % n

/-- `decrypt_char`: `c ** d % n` on BigInts.  (BigInt `**` requires a
non-negative exponent; `mod_inverse_some_props` below shows the `d` the code
produces is non-negative, so the `Nat` exponent is faithful.) -/
def decrypt_char (encrypted_char_code d n : Nat) : Nat := encrypted_char_code ^ d % n

/-- The key pair returned by `RSA.generate_rsa_keys`:
`{ public_key: {e, n}, private_key: {d, n} }`. -/
structure KeyPair where
  e : Nat
  d : Nat
  n : Nat
  deriving DecidableEq, Repr

/-- `RSA.generate_rsa_keys` from `src/unnamed/part_000`, parameterised by the
two primes `p ≠ q` that `generatePrime` sampled (the sampling itself draws on
the `crypto` randomness source and is out of the embedding).  The source
retries the whole generation when `select_e` or `mod_inverse` fail; a retry
produces fresh primes, so every key pair the function ever *returns* comes
from an instantiation where both calls succeeded — the `none` branches model
the retry. -/
def generate_rsa_keys (p q : Nat) : Option KeyPair :=
  let n := p * q
  let phi_n := (p - 1) * (q - 1)
  match select_e phi_n with
  | none => none
  | some e =>
    match mod_inverse e phi_n with
    | none => none
    | some d => some ⟨e, d.toNat, n⟩

/-- `RSA.encrypt_message`: per-character encryption of the code units. -/
def encrypt_message (msg : List Nat) (e n : Nat) : List Nat :=
  msg.map fun code => encrypt_char code e n

/-! ## src/utils/hamming.js -/

/-- The body of `encodeNibble` after the destructuring
`const [d3, d5, d6, d7] = nibble`: three parity bits, codeword
`[p1, p2, d3, p4, d5, d6, d7]`. -/
def encodeNibble4 (d3 d5 d6 d7 : Nat) : List Nat :=
  [(d3 + d5 + d7) % 2, (d3 + d6 + d7) % 2, d3, (d5 + d6 + d7) % 2, d5, d6, d7]

/-- `encodeNibble`: throws `"Invalid nibble size"` unless the input has
exactly 4 bits (modelled as `none`). -/
def encodeNibble (nibble : List Nat) : Option (List Nat) :=
  match nibble with
  | [d3, d5, d6, d7] => some (encodeNibble4 d3 d5 d6 d7)
  | _ => none

/-- The body of `decodeNibble` after the destructuring
`const [p1, p2, d3, p4, d5, d6, d7] = receivedWord`: recompute the three
syndrome bits, flip the 1-indexed position `syndrome` when it is non-zero,
return the four data bits of the corrected word.  The bit flip
`1 - corrected[syndrome-1]` is `Nat` subtraction, which agrees with the JS
BigInt-free arithmetic on the 0/1 bits every caller passes. -/
def decodeNibble7 (p1 p2 d3 p4 d5 d6 d7 : Nat) : List Nat :=
  let s1 := (p1 + d3 + d5 + d7) % 2
  let s2 := (p2 + d3 + d6 + d7) % 2
  let s4 := (p4 + d5 + d6 + d7) % 2
  let syndrome := s4 * 4 + s2 * 2 + s1
  let received := [p1, p2, d3, p4, d5, d6, d7]
  let corrected := if syndrome ≠ 0 then
      received.set (syndrome - 1) (1 - received.getD (syndrome - 1) 0)
    else received
  [corrected.getD 2 0, corrected.getD 4 0, corrected.getD 5 0, corrected.getD 6 0]

/-- `decodeNibble`: throws `"Invalid word size received."` unless the input
has exactly 7 bits (modelled as `none`). -/
def decodeNibble (receivedWord : List Nat) : Option (List Nat) :=
  match receivedWord with
  | [p1, p2, d3, p4, d5, d6, d7] => some (decodeNibble7 p1 p2 d3 p4 d5 d6 d7)
  | _ => none

/-- `(code >> b) & 1` for the 16-bit code units `charCodeAt` yields
(well inside the 32-bit range of JS bitwise operators). -/
def bitAt (code b : Nat) : Nat := code / 2 ^ b % 2

/-- The high nibble `[(code>>7)&1, (code>>6)&1, (code>>5)&1, (code>>4)&1]`. -/
def highNibble (code : Nat) : List Nat :=
  [bitAt code 7, bitAt code 6, bitAt code 5, bitAt code 4]

/-- The low nibble `[(code>>3)&1, (code>>2)&1, (code>>1)&1, code&1]`. -/
def lowNibble (code : Nat) : List Nat :=
  [bitAt code 3, bitAt code 2, bitAt code 1, bitAt code 0]

/-- The `reduce((acc, bit, idx) => acc | (bit << (6 - idx)), 0)` packing of a
7-bit codeword into one character code. -/
def pack7 (bits : List Nat) : Nat :=
  (bits.enum.foldl (fun acc p => acc ||| (p.2 <<< (6 - p.1))) 0)

/-- `HammingCode74.encodeMessage`: each code unit is split into its high and
low nibble, each nibble Hamming-encoded and packed into one output code unit
(high first, then low).  The `encodeNibble` calls are applied to the
destructured 4-element nibbles, exactly as the length-checked source call
always succeeds here. -/
def encodeMessage : List Nat → List Nat
  | [] => []
  | code :: rest =>
    match highNibble code, lowNibble code with
    | [h3, h5, h6, h7], [l3, l5, l6, l7] =>
      pack7 (encodeNibble4 h3 h5 h6 h7) :: pack7 (encodeNibble4 l3 l5 l6 l7)
        :: encodeMessage rest
    | _, _ => encodeMessage rest

/-- `[(code>>6)&1, …, code&1]` — the 7 received bits, most significant first,
as pushed by `for (let b = 6; b >= 0; b--)`. -/
def bits7 (code : Nat) : List Nat :=
  [bitAt code 6, bitAt code 5, bitAt code 4, bitAt code 3,
    bitAt code 2, bitAt code 1, bitAt code 0]

/-- `(h << 3) | (h' << 2) | … ` recombination of a decoded 4-bit data list
followed by `(charCodeHigh << 4) | charCodeLow`. -/
def recombine (dataBits : List Nat) : Nat :=
  (dataBits.getD 0 0) <<< 3 ||| (dataBits.getD 1 0) <<< 2
    ||| (dataBits.getD 2 0) <<< 1 ||| dataBits.getD 3 0

/-- `HammingCode74.decodeMessage`: the `for (i…; i += 2)` loop consumes two
code units per step.  On an odd-length input the final `charCodeAt(i + 1)` is
out of range and yields `NaN`, which every JS bitwise operator coerces to `0`
— so the missing low unit is read as seven `0` bits, modelled by the
one-element case.  Both extracted words have exactly 7 bits, so the
`decodeNibble` length guard never fires and the loop never throws. -/
def decodeMessage : List Nat → List Nat
  | [] => []
  | [highCode] =>
    match bits7 highCode, bits7 0 with
    | [a1, a2, a3, a4, a5, a6, a7], [b1, b2, b3, b4, b5, b6, b7] =>
      [recombine (decodeNibble7 a1 a2 a3 a4 a5 a6 a7) <<< 4
        ||| recombine (decodeNibble7 b1 b2 b3 b4 b5 b6 b7)]
    | _, _ => []
  | highCode :: lowCode :: rest =>
    match bits7 highCode, bits7 lowCode with
    | [a1, a2, a3, a4, a5, a6, a7], [b1, b2, b3, b4, b5, b6, b7] =>
      (recombine (decodeNibble7 a1 a2 a3 a4 a5 a6 a7) <<< 4
        ||| recombine (decodeNibble7 b1 b2 b3 b4 b5 b6 b7)) :: decodeMessage rest
    | _, _ => decodeMessage rest

/-- Flip the bit at 1-indexed position `i` of a codeword, the way
`decodeNibble`'s correction step and the single-bit channel errors of the
spec do (`w[i-1] := 1 - w[i-1]`). -/
def flipBit (w : List Nat) (i : Nat) : List Nat :=
  w.set (i - 1) (1 - w.getD (i - 1) 0)

/-! ## src/server.js — the relay broker -/

/-- One value of the broker's `clients` map:
`{ socket, name: message.name || '', public_key: message.public_key }`.
The socket object is reduced to what the broker reads of it: an identity
(`sockId`) to address writes and its `writable` flag. -/
structure ClientData where
  sockId : Nat
  name : String
  public_key : String
  deriving DecidableEq, Repr

/-- The `clients` JS `Map`, as an insertion-ordered association list —
exactly a JS `Map`'s iteration order. -/
abbrev Registry := List (String × ClientData)

/-- `Map.get`. -/
def mapGet (m : Registry) (k : String) : Option ClientData :=
  match m with
  | [] => none
  | (k', v) :: rest => if k' = k then some v else mapGet rest k

/-- `Map.set`: replaces the value in place when the key is present
(preserving its position in iteration order), otherwise appends. -/
def mapSet (m : Registry) (k : String) (v : ClientData) : Registry :=
  match m with
  | [] => [(k, v)]
  | (k', v') :: rest => if k' = k then (k, v) :: rest else (k', v') :: mapSet rest k v

/-- `Map.delete` of the entry with the given key (a JS `Map` holds at most
one entry per key). -/
def mapDelete (m : Registry) (k : String) : Registry :=
  match m with
  | [] => []
  | (k', v') :: rest => if k' = k then rest else (k', v') :: mapDelete rest k

/-- The keys of the registry in iteration order. -/
def regKeys (m : Registry) : List String := m.map Prod.fst

/-- The structured records the broker writes back to sockets
(the JSON objects passed to `sendJson`). -/
inductive SMsg where
  | registerAck (identifier : String)
  | startChatInfo (identifier name public_key : String)
  | targetNotFound (identifier message : String)
  | incomingMessage (sender senderName : String) (encryptedMessage : List String)
  | deliveryError (recipient reason : String)
  deriving DecidableEq, Repr

/-- `sendJson(socket, data)`: writes only `if (socket && socket.writable)`.
`W` maps a socket id to its current `writable` flag. -/
def sendJson (W : Nat → Bool) (sock : Nat) (data : SMsg) : List (Nat × SMsg) :=
  if W sock then [(sock, data)] else []

/-- The `'REGISTER'` case: overwrite the registry entry for the connection's
identifier (`name` defaulting to `''` via `message.name || ''`, i.e. also
when an explicit empty string was sent) and acknowledge with the identifier. -/
def handleRegister (W : Nat → Bool) (clients : Registry) (clientIdentifier : String)
    (sock : Nat) (name : Option String) (public_key : String) :
    Registry × List (Nat × SMsg) :=
  (mapSet clients clientIdentifier ⟨sock, name.getD "", public_key⟩,
    sendJson W sock (.registerAck clientIdentifier))

/-- The `for (const [id, clientEntry] of clients.entries())` fallback scan of
the `START_CHAT_REQUEST_PK` case: first entry whose display name equals the
requested string, skipping the requester's own entry, with `break`. -/
def findByName (clients : Registry) (targetIdentifier clientIdentifier : String) :
    Option (String × ClientData) :=
  match clients with
  | [] => none
  | (id, clientEntry) :: rest =>
    if clientEntry.name = targetIdentifier ∧ id ≠ clientIdentifier then
      some (id, clientEntry)
    else findByName rest targetIdentifier clientIdentifier

/-- The `'START_CHAT_REQUEST_PK'` case: exact identifier lookup, then — only
when that found nothing and `targetIdentifier` is truthy (a non-empty
string) — the linear name scan; reply `START_CHAT_INFO` with the resolved
identifier (the scan overwrites `message.targetIdentifier`) or
`TARGET_NOT_FOUND` echoing the requested one.  The registry is not touched. -/
def handleStartChat (W : Nat → Bool) (clients : Registry) (clientIdentifier : String)
    (sock : Nat) (targetIdentifier : String) : Registry × List (Nat × SMsg) :=
  let looked := mapGet clients targetIdentifier
  let resolved :=
    match looked with
    | some t => some (targetIdentifier, t)
    | none =>
      if targetIdentifier ≠ "" then findByName clients targetIdentifier clientIdentifier
      else none
  match resolved with
  | some (id, t) =>
    (clients, sendJson W sock (.startChatInfo id t.name t.public_key))
  | none =>
    (clients, sendJson W sock (.targetNotFound targetIdentifier "Receiver not found or offline."))

/-- The `'MESSAGE'` case: drop the record when the sender has no registry
entry; otherwise forward `INCOMING_MESSAGE` to a present-and-writable
receiver, else report `DELIVERY_ERROR` back to the (writable) sender.  The
registry is not touched. -/
def handleMessage (W : Nat → Bool) (clients : Registry) (clientIdentifier : String)
    (receiver : String) (encryptedMessage : List String) :
    Registry × List (Nat × SMsg) :=
  match mapGet clients clientIdentifier with
  | none => (clients, [])
  | some senderClient =>
    match mapGet clients receiver with
    | some receiverClient =>
      if W receiverClient.sockId then
        (clients, sendJson W receiverClient.sockId
          (.incomingMessage clientIdentifier senderClient.name encryptedMessage))
      else
        (clients, if W senderClient.sockId then
            sendJson W senderClient.sockId
              (.deliveryError receiver "User is offline or does not exist.")
          else [])
    | none =>
      (clients, if W senderClient.sockId then
          sendJson W senderClient.sockId
            (.deliveryError receiver "User is offline or does not exist.")
        else [])

/-- The socket `'end'` handler: delete the entry for the connection's
identifier when present (`socket.identifier || clientIdentifier` — both are
the same string here, the one REGISTER keyed the entry by). -/
def handleEnd (clients : Registry) (clientIdentifier : String) : Registry :=
  match mapGet clients clientIdentifier with
  | some _ => mapDelete clients clientIdentifier
  | none => clients

/-- The socket `'error'` handler: `if (clients.has(id)) clients.delete(id)`. -/
def handleError (clients : Registry) (clientIdentifier : String) : Registry :=
  match mapGet clients clientIdentifier with
  | some _ => mapDelete clients clientIdentifier
  | none => clients

/-- Recursor matching `decodeMessage`'s two-code-units-per-step consumption. -/
def twoStepInd {P : List Nat → Prop} (h0 : P []) (h1 : ∀ a, P [a])
    (h2 : ∀ a b l, P l → P (a :: b :: l)) : ∀ l, P l
  | [] => h0
  | [a] => h1 a
  | a :: b :: l => h2 a b l (twoStepInd h0 h1 h2 l)

/-! ## Theorems -/

set_option maxRecDepth 8000 in
/-- One character's worth of the FEC round trip: both packed code units of an
8-bit character decode back to that character. -/
lemma decode_encode_single : ∀ c < 256, decodeMessage (encodeMessage [c]) = [c] := by decide

/-- Peeling one character off the codec round trip is an append. -/
lemma decode_encode_cons (c : Nat) (rest : List Nat) :
    decodeMessage (encodeMessage (c :: rest)) =
      decodeMessage (encodeMessage [c]) ++ decodeMessage (encodeMessage rest) := rfl

/-- C2: for every string of 8-bit character codes, `decodeMessage` inverts
`encodeMessage`, and `encodeMessage` emits exactly two code units per input
character (high-nibble unit first — the order `decodeMessage` relies on). -/
theorem decodeMessage_encodeMessage (P : List Nat) (h : ∀ c ∈ P, c < 256) :
    decodeMessage (encodeMessage P) = P ∧
      (encodeMessage P).length = 2 * P.length := by
  induction P with
  | nil => exact ⟨rfl, rfl⟩
  | cons c rest ih =>
    have hc : c < 256 := h c (by simp)
    obtain ⟨ih1, ih2⟩ := ih fun x hx => h x (by simp [hx])
    constructor
    · rw [decode_encode_cons, ih1, decode_encode_single c hc]
      rfl
    · have hlen : (encodeMessage (c :: rest)).length = (encodeMessage rest).length + 2 := rfl
      rw [hlen, ih2]
      simp only [List.length_cons]
      omega

/-- Witness for C2 at the concrete plaintext `[72, 255]`. -/
theorem decodeMessage_encodeMessage_witness :
    decodeMessage (encodeMessage [72, 255]) = [72, 255] ∧
      (encodeMessage [72, 255]).length = 2 * [72, 255].length :=
  decodeMessage_encodeMessage [72, 255] (by decide)

/-- Error-free decoding: a fresh codeword decodes to its data nibble. -/
lemma decode_encodeNibble_clean :
    ∀ d3 < 2, ∀ d5 < 2, ∀ d6 < 2, ∀ d7 < 2,
      (encodeNibble [d3, d5, d6, d7]).bind decodeNibble = some [d3, d5, d6, d7] := by decide

/-- Single-bit correction at each of the seven positions. -/
lemma decode_encodeNibble_flip :
    ∀ d3 < 2, ∀ d5 < 2, ∀ d6 < 2, ∀ d7 < 2, ∀ i < 7,
      ((encodeNibble [d3, d5, d6, d7]).map (fun w => flipBit w (i + 1))).bind decodeNibble
        = some [d3, d5, d6, d7] := by
  intro d3 h3
  interval_cases d3 <;> decide

/-- C3: decoding corrects any single flipped bit of a codeword — writing the
seven 1-indexed positions `1, …, 7` as `i + 1` with `i < 7` — and an
unflipped codeword decodes to its data nibble as well. -/
theorem decodeNibble_flip_encodeNibble :
    ∀ d3 < 2, ∀ d5 < 2, ∀ d6 < 2, ∀ d7 < 2,
      (encodeNibble [d3, d5, d6, d7]).bind decodeNibble = some [d3, d5, d6, d7] ∧
        ∀ i < 7,
          ((encodeNibble [d3, d5, d6, d7]).map (fun w => flipBit w (i + 1))).bind decodeNibble
            = some [d3, d5, d6, d7] := by
  intro d3 h3 d5 h5 d6 h6 d7 h7
  exact ⟨decode_encodeNibble_clean d3 h3 d5 h5 d6 h6 d7 h7,
    decode_encodeNibble_flip d3 h3 d5 h5 d6 h6 d7 h7⟩

/-- Witness for C3: nibble `[1,0,1,1]`, error at 1-indexed position 5. -/
theorem decodeNibble_flip_encodeNibble_witness :
    (encodeNibble [1, 0, 1, 1]).bind decodeNibble = some [1, 0, 1, 1] ∧
      ((encodeNibble [1, 0, 1, 1]).map (fun w => flipBit w (4 + 1))).bind decodeNibble
        = some [1, 0, 1, 1] := by
  obtain ⟨h1, h2⟩ :=
    decodeNibble_flip_encodeNibble 1 (by norm_num) 0 (by norm_num) 1 (by norm_num) 1 (by norm_num)
  exact ⟨h1, h2 4 (by norm_num)⟩

/-- Counterexample to C6 as stated: the odd-length (length 1) input `[1]` is
not rejected — `decodeMessage` returns the decoded string `[0]`.  (The
out-of-range `charCodeAt` yields `NaN`, whose bits read as seven zeros; the
length is never validated and no error is raised.) -/
theorem decodeMessage_odd_not_rejected : decodeMessage [1] = [0] := by decide

/-- C6 as amended: `decodeMessage` never fails; it returns one character per
two code units, rounding up — `(length + 1) / 2` characters — and an
odd-length input decodes exactly as if a zero code unit were appended. -/
theorem decodeMessage_odd_length (msg : List Nat) :
    (decodeMessage msg).length = (msg.length + 1) / 2 ∧
      (msg.length % 2 = 1 → decodeMessage msg = decodeMessage (msg ++ [0])) := by
  induction msg using twoStepInd with
  | h0 => exact ⟨rfl, by intro h; cases h⟩
  | h1 a =>
    refine ⟨?_, fun _ => rfl⟩
    have h : (decodeMessage [a]).length = 1 := rfl
    rw [h]
    simp
  | h2 a b l ih =>
    obtain ⟨ih1, ih2⟩ := ih
    constructor
    · have hstep : decodeMessage (a :: b :: l) = decodeMessage [a, b] ++ decodeMessage l := rfl
      have hone : (decodeMessage [a, b]).length = 1 := rfl
      rw [hstep, List.length_append, ih1, hone]
      simp only [List.length_cons]
      omega
    · intro hodd
      have hl : l.length % 2 = 1 := by
        simp only [List.length_cons] at hodd
        omega
      have hstep : decodeMessage (a :: b :: l) = decodeMessage [a, b] ++ decodeMessage l := rfl
      have hstep2 : decodeMessage (a :: b :: (l ++ [0]))
          = decodeMessage [a, b] ++ decodeMessage (l ++ [0]) := rfl
      show decodeMessage (a :: b :: l) = decodeMessage (a :: b :: (l ++ [0]))
      rw [hstep, hstep2, ih2 hl]

/-- Witness for the amended C6 at the odd-length input `[1]`. -/
theorem decodeMessage_odd_length_witness :
    (decodeMessage [1]).length = ([1].length + 1) / 2 ∧
      decodeMessage [1] = decodeMessage ([1] ++ [0]) := by
  obtain ⟨h1, h2⟩ := decodeMessage_odd_length [1]
  exact ⟨h1, h2 (by norm_num)⟩

/-- C10: every code unit `encodeMessage` emits packs exactly 7 codeword bits,
so it is below 128; hence each symbol value later fed to the per-character
RSA encryption of an FEC-encoded message is below every modulus `n > 127`. -/
theorem encodeMessage_output_lt_128 (msg : List Nat) (c : Nat)
    (hc : c ∈ encodeMessage msg) : c < 128 ∧ ∀ n, 127 < n → c < n := by
  have main : c < 128 := by
    induction msg with
    | nil => cases hc
    | cons code rest ih =>
      have hpack : ∀ b3 < 2, ∀ b5 < 2, ∀ b6 < 2, ∀ b7 < 2,
          pack7 (encodeNibble4 b3 b5 b6 b7) < 128 := by decide
      have hbit : ∀ k, bitAt code k < 2 := fun k => Nat.mod_lt _ (by norm_num)
      have hcons : encodeMessage (code :: rest)
          = pack7 (encodeNibble4 (bitAt code 7) (bitAt code 6) (bitAt code 5) (bitAt code 4))
            :: pack7 (encodeNibble4 (bitAt code 3) (bitAt code 2) (bitAt code 1) (bitAt code 0))
            :: encodeMessage rest := rfl
      rw [hcons] at hc
      simp only [List.mem_cons] at hc
      rcases hc with h | h | h
      · exact h ▸ hpack _ (hbit 7) _ (hbit 6) _ (hbit 5) _ (hbit 4)
      · exact h ▸ hpack _ (hbit 3) _ (hbit 2) _ (hbit 1) _ (hbit 0)
      · exact ih h
  exact ⟨main, fun n hn => lt_of_lt_of_le main (by omega)⟩

/-- Witness for C10: the first code unit emitted for the plaintext `[72]`. -/
theorem encodeMessage_output_lt_128_witness :
    76 < 128 ∧ ∀ n, 127 < n → 76 < n :=
  encodeMessage_output_lt_128 [72] 76 (by decide)

/-- The broker's fallback scan is exactly "first registry entry, in iteration
order, whose display name equals the requested string and which is not the
requester's own". -/
lemma findByName_eq_find (clients : Registry) (target requester : String) :
    findByName clients target requester
      = clients.find? fun p => p.2.name == target && p.1 != requester := by
  induction clients with
  | nil => rfl
  | cons hd tl ih =>
    obtain ⟨id, e⟩ := hd
    rw [List.find?_cons]
    by_cases h1 : e.name = target
    · by_cases h2 : id = requester
      · have hb : (e.name == target && id != requester) = false := by simp [h2]
        rw [hb]
        simpa [findByName, h1, h2] using ih
      · have hb : (e.name == target && id != requester) = true := by simp [h1, h2]
        rw [hb]
        simp [findByName, h1, h2]
    · have hb : (e.name == target && id != requester) = false := by simp [h1]
      rw [hb]
      simpa [findByName, h1] using ih

/-- C4: `START_CHAT` resolution — exact identifier lookup takes priority; the
name scan (skipping the requester, first match in iteration order) runs only
when the lookup found nothing; a resolution answers with the resolved
identifier, display name and public key, a failure with a not-found notice
echoing the requested identifier.  Stated for a requester whose socket is
writable, since every reply goes through `sendJson`'s writability guard. -/
theorem startChat_resolution (W : Nat → Bool) (clients : Registry)
    (clientIdentifier : String) (sock : Nat) (targetIdentifier : String)
    (hW : W sock = true) :
    (∀ t, mapGet clients targetIdentifier = some t →
        handleStartChat W clients clientIdentifier sock targetIdentifier
          = (clients, [(sock, .startChatInfo targetIdentifier t.name t.public_key)])) ∧
      (mapGet clients targetIdentifier = none → targetIdentifier ≠ "" →
        ∀ id t, (clients.find? fun p => p.2.name == targetIdentifier && p.1 != clientIdentifier)
            = some (id, t) →
          handleStartChat W clients clientIdentifier sock targetIdentifier
            = (clients, [(sock, .startChatInfo id t.name t.public_key)])) ∧
      (mapGet clients targetIdentifier = none →
        (targetIdentifier = "" ∨
          (clients.find? fun p => p.2.name == targetIdentifier && p.1 != clientIdentifier)
            = none) →
        handleStartChat W clients clientIdentifier sock targetIdentifier
          = (clients, [(sock, .targetNotFound targetIdentifier
              "Receiver not found or offline.")])) := by
  refine ⟨fun t ht => ?_, fun hnone hne id t hfind => ?_, fun hnone hfail => ?_⟩
  · simp [handleStartChat, ht, sendJson, hW]
  · simp [handleStartChat, hnone, hne, findByName_eq_find, hfind, sendJson, hW]
  · rcases hfail with h | h
    · subst h
      simp [handleStartChat, hnone, sendJson, hW]
    · by_cases hne : targetIdentifier = ""
      · subst hne
        simp [handleStartChat, hnone, sendJson, hW]
      · simp [handleStartChat, hnone, hne, findByName_eq_find, h, sendJson, hW]

/-- Witness for C4: a two-client registry, resolution by display name. -/
theorem startChat_resolution_witness :
    handleStartChat (fun _ => true)
        [("10.0.0.1:50000", ⟨1, "alice", "pkA"⟩), ("10.0.0.2:50001", ⟨2, "bob", "pkB"⟩)]
        "10.0.0.1:50000" 1 "bob"
      = ([("10.0.0.1:50000", ⟨1, "alice", "pkA"⟩), ("10.0.0.2:50001", ⟨2, "bob", "pkB"⟩)],
          [(1, .startChatInfo "10.0.0.2:50001" "bob" "pkB")]) := by
  have h := startChat_resolution (fun _ => true)
    [("10.0.0.1:50000", ⟨1, "alice", "pkA"⟩), ("10.0.0.2:50001", ⟨2, "bob", "pkB"⟩)]
    "10.0.0.1:50000" 1 "bob" rfl
  exact h.2.1 (by decide) (by decide) "10.0.0.2:50001" ⟨2, "bob", "pkB"⟩ (by decide)

/-- C5: `MESSAGE` routing for a registered sender — a registered receiver
with a writable socket gets exactly one forwarded record carrying the sender
identifier, the sender display name and the payload untouched (and the sender
gets nothing); an absent receiver, or one whose socket is no longer writable,
yields exactly one delivery-failure notice to the (writable) sender naming
the intended receiver, and nothing is forwarded. -/
theorem message_routing (W : Nat → Bool) (clients : Registry)
    (clientIdentifier receiver : String) (payload : List String)
    (senderClient : ClientData)
    (hs : mapGet clients clientIdentifier = some senderClient) :
    (∀ receiverClient, mapGet clients receiver = some receiverClient →
        W receiverClient.sockId = true →
        handleMessage W clients clientIdentifier receiver payload
          = (clients, [(receiverClient.sockId,
              .incomingMessage clientIdentifier senderClient.name payload)])) ∧
      (W senderClient.sockId = true →
        (mapGet clients receiver = none ∨
          ∃ rc, mapGet clients receiver = some rc ∧ W rc.sockId = false) →
        handleMessage W clients clientIdentifier receiver payload
          = (clients, [(senderClient.sockId,
              .deliveryError receiver "User is offline or does not exist.")])) := by
  constructor
  · intro rc hrc hw
    simp [handleMessage, hs, hrc, hw, sendJson]
  · intro hws habs
    rcases habs with h | ⟨rc, hrc, hw⟩
    · simp [handleMessage, hs, h, hws, sendJson]
    · simp [handleMessage, hs, hrc, hw, hws, sendJson]

/-- Witness for C5: both the forwarding and the delivery-failure branch on a
concrete registry (receiver present and writable; receiver absent). -/
theorem message_routing_witness :
    handleMessage (fun _ => true)
        [("10.0.0.1:50000", ⟨1, "alice", "pkA"⟩), ("10.0.0.2:50001", ⟨2, "bob", "pkB"⟩)]
        "10.0.0.1:50000" "10.0.0.2:50001" ["17", "42"]
      = ([("10.0.0.1:50000", ⟨1, "alice", "pkA"⟩), ("10.0.0.2:50001", ⟨2, "bob", "pkB"⟩)],
          [(2, .incomingMessage "10.0.0.1:50000" "alice" ["17", "42"])]) ∧
      handleMessage (fun _ => true)
          [("10.0.0.1:50000", ⟨1, "alice", "pkA"⟩)]
          "10.0.0.1:50000" "10.0.0.9:1" ["17"]
        = ([("10.0.0.1:50000", ⟨1, "alice", "pkA"⟩)],
            [(1, .deliveryError "10.0.0.9:1" "User is offline or does not exist.")]) := by
  constructor
  · exact (message_routing (fun _ => true) _ _ _ _ ⟨1, "alice", "pkA"⟩ (by decide)).1
      ⟨2, "bob", "pkB"⟩ (by decide) rfl
  · exact (message_routing (fun _ => true) _ _ _ _ ⟨1, "alice", "pkA"⟩ (by decide)).2
      rfl (Or.inl (by decide))

/-- C9: a `MESSAGE` record from a connection with no registry entry is
silently dropped — no reply to anyone, nothing forwarded, registry unchanged. -/
theorem message_unregistered_dropped (W : Nat → Bool) (clients : Registry)
    (clientIdentifier receiver : String) (payload : List String)
    (hs : mapGet clients clientIdentifier = none) :
    handleMessage W clients clientIdentifier receiver payload = (clients, []) := by
  simp [handleMessage, hs]

/-- Witness for C9: an unregistered sender against a one-client registry. -/
theorem message_unregistered_dropped_witness :
    handleMessage (fun _ => true) [("10.0.0.2:50001", ⟨2, "bob", "pkB"⟩)]
        "10.0.0.1:50000" "10.0.0.2:50001" ["5"]
      = ([("10.0.0.2:50001", ⟨2, "bob", "pkB"⟩)], []) :=
  message_unregistered_dropped (fun _ => true) _ _ _ _ (by decide)

/-- `Map.set` keeps the key list unchanged when the key is present (in-place
replacement) and appends the key otherwise. -/
lemma regKeys_mapSet (m : Registry) (k : String) (v : ClientData) :
    regKeys (mapSet m k v) = if k ∈ regKeys m then regKeys m else regKeys m ++ [k] := by
  induction m with
  | nil => simp [mapSet, regKeys]
  | cons hd tl ih =>
    obtain ⟨k', v'⟩ := hd
    by_cases h : k' = k
    · subst h
      simp [mapSet, regKeys]
    · simp only [mapSet, if_neg h, regKeys, List.map_cons] at ih ⊢
      rw [ih]
      have hk : (k ∈ k' :: tl.map Prod.fst) ↔ (k ∈ tl.map Prod.fst) := by
        simp [Ne.symm h]
      by_cases hmem : k ∈ tl.map Prod.fst
      · simp [hmem, hk.mpr hmem]
      · simp only [if_neg hmem, if_neg (fun hc => hmem (hk.mp hc))]
        simp

/-- After `Map.set`, looking up the written key yields the written value. -/
lemma mapGet_mapSet_self (m : Registry) (k : String) (v : ClientData) :
    mapGet (mapSet m k v) k = some v := by
  induction m with
  | nil => simp [mapSet, mapGet]
  | cons hd tl ih =>
    obtain ⟨k', v'⟩ := hd
    by_cases h : k' = k
    · subst h
      simp [mapSet, mapGet]
    · simp [mapSet, mapGet, h, ih]

/-- Deleting a key only ever removes entries: the remaining key list is a
sublist of the original. -/
lemma regKeys_mapDelete_sublist (m : Registry) (k : String) :
    (regKeys (mapDelete m k)).Sublist (regKeys m) := by
  induction m with
  | nil => simp [mapDelete, regKeys]
  | cons hd tl ih =>
    obtain ⟨k', v'⟩ := hd
    by_cases h : k' = k
    · simp only [mapDelete, if_pos h, regKeys, List.map_cons]
      exact List.sublist_cons_self k' (tl.map Prod.fst)
    · simp only [mapDelete, if_neg h, regKeys, List.map_cons]
      exact (ih : (regKeys (mapDelete tl k)).Sublist (regKeys tl)).cons₂ k'

/-- Deleting an absent key is the identity. -/
lemma mapDelete_absent (m : Registry) (k : String) (h : mapGet m k = none) :
    mapDelete m k = m := by
  induction m with
  | nil => rfl
  | cons hd tl ih =>
    obtain ⟨k', v'⟩ := hd
    by_cases hk : k' = k
    · simp [mapGet, hk] at h
    · simp only [mapGet, if_neg hk] at h
      simp [mapDelete, hk, ih h]

/-- A key outside the key list is not found. -/
lemma mapGet_not_mem (m : Registry) (k : String) (h : k ∉ regKeys m) :
    mapGet m k = none := by
  induction m with
  | nil => rfl
  | cons hd tl ih =>
    obtain ⟨k', v'⟩ := hd
    simp only [regKeys, List.map_cons, List.mem_cons, not_or] at h
    have hne : ¬k' = k := fun he => h.1 he.symm
    show (if k' = k then some v' else mapGet tl k) = none
    rw [if_neg hne]
    exact ih h.2

/-- With unique keys, deletion actually removes the key: the subsequent
lookup fails. -/
lemma mapGet_mapDelete_self (m : Registry) (k : String)
    (h : (regKeys m).Nodup) : mapGet (mapDelete m k) k = none := by
  induction m with
  | nil => rfl
  | cons hd tl ih =>
    obtain ⟨k', v'⟩ := hd
    simp only [regKeys, List.map_cons, List.nodup_cons] at h
    by_cases hk : k' = k
    · simp only [mapDelete, if_pos hk]
      subst hk
      exact mapGet_not_mem tl k' h.1
    · simp only [mapDelete, if_neg hk, mapGet, if_neg hk]
      exact ih h.2

/-- C8: registry uniqueness is an invariant — `REGISTER` overwrites any prior
entry under the connection's identifier (afterwards the identifier maps to
exactly the new record, and to exactly one record), and the disconnect
handlers (`end` and `error`) preserve uniqueness, actually remove the
identifier's entry (the subsequent lookup fails), and are a no-op when the
entry is already absent. -/
theorem registry_invariant (W : Nat → Bool) (clients : Registry)
    (id : String) (sock : Nat) (name : Option String) (pk : String)
    (hnodup : (regKeys clients).Nodup) :
    (regKeys (handleRegister W clients id sock name pk).1).Nodup ∧
      mapGet (handleRegister W clients id sock name pk).1 id
        = some ⟨sock, name.getD "", pk⟩ ∧
      (regKeys (handleRegister W clients id sock name pk).1).count id = 1 ∧
      (regKeys (handleEnd clients id)).Nodup ∧
      (regKeys (handleError clients id)).Nodup ∧
      mapGet (handleEnd clients id) id = none ∧
      mapGet (handleError clients id) id = none ∧
      (mapGet clients id = none →
        handleEnd clients id = clients ∧ handleError clients id = clients) := by
  have hset : ∀ v : ClientData, (regKeys (mapSet clients id v)).Nodup := by
    intro v
    rw [regKeys_mapSet]
    by_cases h : id ∈ regKeys clients
    · simpa [h] using hnodup
    · simp only [if_neg h]
      simpa [List.nodup_append] using ⟨hnodup, h⟩
  have hdel : ∀ r : Registry, r = clients → (regKeys (mapDelete r id)).Nodup :=
    fun r hr => ((regKeys_mapDelete_sublist r id).nodup (hr ▸ hnodup))
  refine ⟨hset _, mapGet_mapSet_self clients id _, ?_, ?_, ?_, ?_, ?_, ?_⟩
  · have hmem : ∀ v : ClientData, id ∈ regKeys (mapSet clients id v) := by
      intro v
      rw [regKeys_mapSet]
      by_cases h : id ∈ regKeys clients <;> simp [h]
    show (regKeys (mapSet clients id ⟨sock, name.getD "", pk⟩)).count id = 1
    have hle := List.nodup_iff_count_le_one.mp (hset ⟨sock, name.getD "", pk⟩) id
    have hge := List.count_pos_iff.mpr (hmem ⟨sock, name.getD "", pk⟩)
    omega
  · unfold handleEnd
    cases hg : mapGet clients id with
    | none => exact hnodup
    | some v => exact hdel clients rfl
  · unfold handleError
    cases hg : mapGet clients id with
    | none => exact hnodup
    | some v => exact hdel clients rfl
  · unfold handleEnd
    cases hg : mapGet clients id with
    | none => exact hg
    | some v => exact mapGet_mapDelete_self clients id hnodup
  · unfold handleError
    cases hg : mapGet clients id with
    | none => exact hg
    | some v => exact mapGet_mapDelete_self clients id hnodup
  · intro habs
    constructor
    · unfold handleEnd
      rw [habs]
    · unfold handleError
      rw [habs]

/-- Witness for C8: re-registration of an existing identifier plus the
removal of a present entry by the disconnect handler, on a concrete
two-client registry. -/
theorem registry_invariant_witness :
    (regKeys (handleRegister (fun _ => true)
        [("10.0.0.1:50000", ⟨1, "alice", "pkA"⟩), ("10.0.0.2:50001", ⟨2, "bob", "pkB"⟩)]
        "10.0.0.1:50000" 3 (some "alice2") "pkA2").1).Nodup ∧
      mapGet (handleRegister (fun _ => true)
          [("10.0.0.1:50000", ⟨1, "alice", "pkA"⟩), ("10.0.0.2:50001", ⟨2, "bob", "pkB"⟩)]
          "10.0.0.1:50000" 3 (some "alice2") "pkA2").1 "10.0.0.1:50000"
        = some ⟨3, "alice2", "pkA2"⟩ ∧
      mapGet (handleEnd
          [("10.0.0.1:50000", ⟨1, "alice", "pkA"⟩), ("10.0.0.2:50001", ⟨2, "bob", "pkB"⟩)]
          "10.0.0.1:50000") "10.0.0.1:50000" = none := by
  have h := registry_invariant (fun _ => true)
    [("10.0.0.1:50000", ⟨1, "alice", "pkA"⟩), ("10.0.0.2:50001", ⟨2, "bob", "pkB"⟩)]
    "10.0.0.1:50000" 3 (some "alice2") "pkA2" (by decide)
  exact ⟨h.1, h.2.1, h.2.2.2.2.2.1⟩

/-- Soundness of the 6k±1 wheel: while enough fuel remains (the wrapper's
`num` always is), a `true` answer means no candidate `i + 6k` or `i + 6k + 2`
within the square-root bound divides `num`. -/
lemma trial_loop_true_no_divisor (num : Nat) :
    ∀ fuel i, 5 ≤ i → num - i ≤ fuel → trial_loop num fuel i = true →
      ∀ k, (i + 6 * k) * (i + 6 * k) ≤ num →
        num % (i + 6 * k) ≠ 0 ∧ num % (i + 6 * k + 2) ≠ 0 := by
  intro fuel
  induction fuel with
  | zero =>
    intro i hi hfuel _ k hk
    exfalso
    have hik : 5 ≤ i + 6 * k := by omega
    have hni : num ≤ i := by omega
    have h1 : 5 * (i + 6 * k) ≤ (i + 6 * k) * (i + 6 * k) := Nat.mul_le_mul hik (le_refl _)
    have h2 : (i + 6 * k) * (i + 6 * k) ≤ i := le_trans hk hni
    linarith
  | succ fuel ih =>
    intro i hi hfuel htrue k hk
    simp only [trial_loop] at htrue
    by_cases hle : i * i ≤ num
    · rw [if_pos hle] at htrue
      by_cases hdiv : num % i = 0 ∨ num % (i + 2) = 0
      · rw [if_pos hdiv] at htrue
        cases htrue
      · rw [if_neg hdiv] at htrue
        push_neg at hdiv
        cases k with
        | zero => simpa using hdiv
        | succ k =>
          have heq : i + 6 * (k + 1) = i + 6 + 6 * k := by ring
          rw [heq] at hk ⊢
          exact ih (i + 6) (by omega) (by omega) htrue k hk
    · exfalso
      have : i * i ≤ (i + 6 * k) * (i + 6 * k) := Nat.mul_le_mul (by omega) (by omega)
      omega

/-- Completeness of the wheel: a `false` answer exhibits a divisor `j ≥ 5`
with `(j - 2)^2 ≤ num`. -/
lemma trial_loop_false_divisor (num : Nat) :
    ∀ fuel i, 5 ≤ i → trial_loop num fuel i = false →
      ∃ j, 5 ≤ j ∧ num % j = 0 ∧ (j - 2) * (j - 2) ≤ num := by
  intro fuel
  induction fuel with
  | zero =>
    intro i _ hfalse
    cases hfalse
  | succ fuel ih =>
    intro i hi hfalse
    simp only [trial_loop] at hfalse
    by_cases hle : i * i ≤ num
    · rw [if_pos hle] at hfalse
      by_cases hdiv : num % i = 0 ∨ num % (i + 2) = 0
      · rcases hdiv with h | h
        · exact ⟨i, hi, h, le_trans (Nat.mul_le_mul (by omega) (by omega)) hle⟩
        · exact ⟨i + 2, by omega, h, by simpa using hle⟩
      · rw [if_neg hdiv] at hfalse
        exact ih (i + 6) (by omega) hfalse
    · rw [if_neg hle] at hfalse
      cases hfalse

/-- C7: `isPrime` decides primality on its whole non-negative domain — it
answers `true` exactly on the primes, and in particular `false` on every
input `≤ 1`. -/
theorem isPrime_correct (num : Nat) :
    (isPrime num = true ↔ Nat.Prime num) ∧ (num ≤ 1 → isPrime num = false) := by
  constructor
  · constructor
    · intro h
      unfold isPrime at h
      split_ifs at h with h1 h2 h3
      · have : num = 2 ∨ num = 3 := by omega
        rcases this with rfl | rfl
        · exact Nat.prime_two
        · exact Nat.prime_three
      · push_neg at h3
        obtain ⟨hm2, hm3⟩ := h3
        have h5 : 5 ≤ num := by omega
        by_contra hnp
        have hp : num.minFac.Prime := Nat.minFac_prime (by omega)
        have hdvd : num.minFac ∣ num := Nat.minFac_dvd num
        have hsq : num.minFac ^ 2 ≤ num := Nat.minFac_sq_le_self (by omega) hnp
        have hmodz : num % num.minFac = 0 := Nat.mod_eq_zero_of_dvd hdvd
        have hp2 : num.minFac ≠ 2 := fun he =>
          hm2 (Nat.mod_eq_zero_of_dvd (he ▸ hdvd))
        have hp3 : num.minFac ≠ 3 := fun he =>
          hm3 (Nat.mod_eq_zero_of_dvd (he ▸ hdvd))
        have hp5 : 5 ≤ num.minFac := by
          have h2le := hp.two_le
          have h4 : num.minFac ≠ 4 := fun he => by
            rw [he] at hp
            exact (by norm_num : ¬Nat.Prime 4) hp
          omega
        have hpm2 : num.minFac % 2 ≠ 0 := fun he =>
          hp2 (((hp.eq_one_or_self_of_dvd 2 (Nat.dvd_of_mod_eq_zero he)).resolve_left
            (by norm_num)).symm)
        have hpm3 : num.minFac % 3 ≠ 0 := fun he =>
          hp3 (((hp.eq_one_or_self_of_dvd 3 (Nat.dvd_of_mod_eq_zero he)).resolve_left
            (by norm_num)).symm)
        have hsq' : num.minFac * num.minFac ≤ num := by
          rw [← pow_two]
          exact hsq
        have hloop := trial_loop_true_no_divisor num num 5 (by norm_num) (by omega) h
        have hp6 : num.minFac % 6 = 1 ∨ num.minFac % 6 = 5 := by omega
        rcases hp6 with h6 | h6
        · have hp7 : 7 ≤ num.minFac := by omega
          obtain ⟨k, hk⟩ : ∃ k, num.minFac = 5 + 6 * k + 2 := ⟨(num.minFac - 7) / 6, by omega⟩
          have hble : (5 + 6 * k) * (5 + 6 * k) ≤ num :=
            le_trans (Nat.mul_le_mul (by omega) (by omega)) hsq'
          exact (hloop k hble).2 (by rw [← hk]; exact hmodz)
        · obtain ⟨k, hk⟩ : ∃ k, num.minFac = 5 + 6 * k := ⟨(num.minFac - 5) / 6, by omega⟩
          have hble : (5 + 6 * k) * (5 + 6 * k) ≤ num := by
            rw [← hk]
            exact hsq'
          exact (hloop k hble).1 (by rw [← hk]; exact hmodz)
    · intro hp
      unfold isPrime
      split_ifs with h1 h2 h3
      · exact absurd hp.two_le (by omega)
      · rfl
      · exfalso
        rcases h3 with h | h
        · rcases (hp.eq_one_or_self_of_dvd 2 (Nat.dvd_of_mod_eq_zero h)) with h2' | h2' <;> omega
        · rcases (hp.eq_one_or_self_of_dvd 3 (Nat.dvd_of_mod_eq_zero h)) with h3' | h3' <;> omega
      · cases htl : trial_loop num num 5 with
        | true => rfl
        | false =>
          exfalso
          obtain ⟨j, hj5, hjmod, hjsq⟩ := trial_loop_false_divisor num num 5 (by omega) htl
          rcases hp.eq_one_or_self_of_dvd j (Nat.dvd_of_mod_eq_zero hjmod) with rfl | rfl
          · omega
          · push_neg at h3
            have h5 : 5 ≤ j := hj5
            have h32 : 3 ≤ j - 2 := by omega
            have := Nat.mul_le_mul_right (j - 2) h32
            omega
  · intro hle
    simp [isPrime, hle]

/-- Witness for C7: a prime accepted, and an input `≤ 1` rejected. -/
theorem isPrime_correct_witness : isPrime 7 = true ∧ isPrime 1 = false :=
  ⟨(isPrime_correct 7).1.mpr (by norm_num), (isPrime_correct 1).2 (by norm_num)⟩

/-- The source's recursive `gcd` is Euclid's: it agrees with `Nat.gcd`. -/
lemma gcdJS_loop_eq_gcd (fuel a b : Nat) (h : b < fuel) :
    gcdJS_loop fuel a b = Nat.gcd a b := by
  induction fuel generalizing a b with
  | zero => omega
  | succ fuel ih =>
    simp only [gcdJS_loop]
    by_cases hb : b = 0
    · subst hb
      simp
    · rw [if_neg hb, ih b (a % b) (by
        have := Nat.mod_lt a (Nat.pos_of_ne_zero hb)
        omega)]
      rw [Nat.gcd_comm b (a % b), ← Nat.gcd_rec b a]
      exact Nat.gcd_comm b a

/-- `gcd` from `src/utils/math.js` agrees with `Nat.gcd`. -/
lemma gcdJS_eq_gcd (a b : Nat) : gcdJS a b = Nat.gcd a b :=
  gcdJS_loop_eq_gcd (b + 1) a b (Nat.lt_succ_self b)

/-- Whatever `select_e`'s scan returns is coprime to `phi`, at least the
starting candidate, and below `phi`. -/
lemma select_e_loop_some (phi : Nat) :
    ∀ fuel e0 e, select_e_loop phi fuel e0 = some e →
      Nat.gcd e phi = 1 ∧ e0 ≤ e ∧ e < phi := by
  intro fuel
  induction fuel with
  | zero =>
    intro e0 e h
    cases h
  | succ fuel ih =>
    intro e0 e h
    simp only [select_e_loop] at h
    by_cases hlt : e0 < phi
    · rw [if_pos hlt] at h
      by_cases hg : gcdJS e0 phi = 1
      · rw [if_pos hg] at h
        obtain rfl : e0 = e := Option.some.inj h
        exact ⟨by rw [← gcdJS_eq_gcd]; exact hg, le_refl e0, hlt⟩
      · rw [if_neg hg] at h
        obtain ⟨h1, h2, h3⟩ := ih (e0 + 1) e h
        exact ⟨h1, by omega, h3⟩
    · rw [if_neg hlt] at h
      cases h

/-- The `e` of a generated key pair: coprime to `phi`, in `[2, phi)`. -/
lemma select_e_some (phi e : Nat) (h : select_e phi = some e) :
    Nat.gcd e phi = 1 ∧ 2 ≤ e ∧ e < phi :=
  select_e_loop_some phi phi 2 e h

/-- With `x0` and `x1` of opposite (weak) signs and `q ≥ 0`, the Bézout
update's absolute value splits additively. -/
lemma abs_bezout_step (x0 x1 q : Int) (hq : 0 ≤ q) (hopp : x0 * x1 ≤ 0) :
    |x1 - q * x0| = |x1| + q * |x0| := by
  rcases mul_nonpos_iff.mp hopp with ⟨h0, h1⟩ | ⟨h0, h1⟩
  · rw [abs_of_nonneg h0, abs_of_nonpos h1,
      abs_of_nonpos (by nlinarith [mul_nonneg hq h0] : x1 - q * x0 ≤ 0)]
    ring
  · rw [abs_of_nonpos h0, abs_of_nonneg h1,
      abs_of_nonneg (by nlinarith [mul_nonpos_of_nonneg_of_nonpos hq h0] : 0 ≤ x1 - q * x0)]
    ring

/-- Invariant of `mod_inverse`'s extended-Euclid loop: `x1` tracks a Bézout
coefficient of `e` for the first remainder (`e·x1 ≡ a (mod phi)`), the signs
of `x0` and `x1` alternate, and `a·|x0| + m·|x1| = phi`; hence a successful
run ends at `a = 1` with an `x` satisfying `e·x ≡ 1 (mod phi)` and
`|x| ≤ phi`. -/
lemma mod_inverse_loop_invariant (e phi : Nat) :
    ∀ fuel (a m : Nat) (x0 x1 x : Int), 1 ≤ a →
      (e : Int) * x1 ≡ (a : Int) [ZMOD (phi : Int)] →
      (e : Int) * x0 ≡ (m : Int) [ZMOD (phi : Int)] →
      (a : Int) * |x0| + (m : Int) * |x1| = (phi : Int) →
      x0 * x1 ≤ 0 →
      (m = 0 → |x1| ≤ (phi : Int)) →
      mod_inverse_loop fuel a m x0 x1 = some x →
      (e : Int) * x ≡ 1 [ZMOD (phi : Int)] ∧ |x| ≤ (phi : Int) := by
  intro fuel
  induction fuel with
  | zero =>
    intro a m x0 x1 x _ _ _ _ _ _ h
    cases h
  | succ fuel ih =>
    intro a m x0 x1 x ha hc1 hc2 hS hO hB hloop
    simp only [mod_inverse_loop] at hloop
    by_cases hgt : a > 1
    · rw [if_pos hgt] at hloop
      by_cases hm : m = 0
      · rw [if_pos hm] at hloop
        cases hloop
      · rw [if_neg hm] at hloop
        have hm1 : 1 ≤ m := Nat.one_le_iff_ne_zero.mpr hm
        have hq0 : (0 : Int) ≤ ((a / m : Nat) : Int) := Int.natCast_nonneg _
        have hqm : ((a % m : Nat) : Int) = (a : Int) - ((a / m : Nat) : Int) * (m : Int) := by
          have hdm : (m : Int) * ((a / m : Nat) : Int) + ((a % m : Nat) : Int) = (a : Int) := by
            exact_mod_cast Nat.div_add_mod a m
          linarith [hdm]
        refine ih m (a % m) (x1 - ((a / m : Nat) : Int) * x0) x0 x hm1 hc2 ?_ ?_ ?_ ?_ hloop
        · have hmul := Int.ModEq.mul_left ((a / m : Nat) : Int) hc2
          have hsub := Int.ModEq.sub hc1 hmul
          calc (e : Int) * (x1 - ((a / m : Nat) : Int) * x0)
              = (e : Int) * x1 - ((a / m : Nat) : Int) * ((e : Int) * x0) := by ring
            _ ≡ (a : Int) - ((a / m : Nat) : Int) * (m : Int) [ZMOD (phi : Int)] := hsub
            _ = ((a % m : Nat) : Int) := hqm.symm
        · rw [abs_bezout_step x0 x1 _ hq0 hO, hqm]
          linear_combination hS
        · rcases mul_nonpos_iff.mp hO with ⟨h0, h1⟩ | ⟨h0, h1⟩
          · exact mul_nonpos_iff.mpr (Or.inr
              ⟨by nlinarith [mul_nonneg hq0 h0], h0⟩)
          · exact mul_nonpos_iff.mpr (Or.inl
              ⟨by nlinarith [mul_nonpos_of_nonneg_of_nonpos hq0 h0], h0⟩)
        · intro _
          have ha2 : (2 : Int) ≤ (a : Int) := by exact_mod_cast hgt
          nlinarith [abs_nonneg x0, abs_nonneg x1,
            mul_nonneg (Int.natCast_nonneg m) (abs_nonneg x1)]
    · rw [if_neg hgt] at hloop
      obtain rfl : x1 = x := Option.some.inj hloop
      have ha1 : a = 1 := by omega
      subst ha1
      refine ⟨by simpa using hc1, ?_⟩
      by_cases hm : m = 0
      · exact hB hm
      · have hm1 : (1 : Int) ≤ (m : Int) := by exact_mod_cast Nat.one_le_iff_ne_zero.mpr hm
        nlinarith [abs_nonneg x0, abs_nonneg x1]

/-- Correctness of `mod_inverse` on a success: the returned value is a
non-negative modular inverse of `e` modulo `phi`. -/
lemma mod_inverse_some_props (e phi : Nat) (x : Int) (he : 1 ≤ e) (hphi : 2 ≤ phi)
    (h : mod_inverse e phi = some x) :
    0 ≤ x ∧ (e : Int) * x ≡ 1 [ZMOD (phi : Int)] := by
  unfold mod_inverse at h
  rw [if_neg (by omega : phi ≠ 1)] at h
  cases hloop : mod_inverse_loop (phi + 1) e phi 0 1 with
  | none =>
    rw [hloop] at h
    cases h
  | some x1 =>
    rw [hloop] at h
    have hx : x = if x1 < 0 then x1 + (phi : Int) else x1 := (Option.some.inj h).symm
    have hzero : (0 : Int) ≡ (phi : Int) [ZMOD (phi : Int)] :=
      (Int.modEq_zero_iff_dvd.mpr dvd_rfl).symm
    have hinv := mod_inverse_loop_invariant e phi (phi + 1) e phi 0 1 x1 he
      (by simp)
      (by simpa using hzero)
      (by simp)
      (by simp)
      (fun h0 => absurd h0 (by omega))
      hloop
    obtain ⟨hcong, habs⟩ := hinv
    rw [hx]
    by_cases hneg : x1 < 0
    · rw [if_pos hneg]
      have hge : -(phi : Int) ≤ x1 := (abs_le.mp habs).1
      refine ⟨by linarith, ?_⟩
      have hshift : (e : Int) * (x1 + (phi : Int)) ≡ (e : Int) * x1 [ZMOD (phi : Int)] := by
        show ((e : Int) * (x1 + (phi : Int))) % (phi : Int) = ((e : Int) * x1) % (phi : Int)
        have hnum : (e : Int) * (x1 + (phi : Int))
            = (e : Int) * x1 + (phi : Int) * (e : Int) := by ring
        rw [hnum, Int.add_mul_emod_self_left]
      exact hshift.trans hcong
    · rw [if_neg hneg]
      exact ⟨by linarith, hcong⟩

/-- Fermat: for prime `p` and exponent `≡ 1 mod (p-1)`, `m^k ≡ m (mod p)` —
for every `m`, including multiples of `p`. -/
lemma pow_modEq_prime (p : Nat) (hp : p.Prime) (m c k : Nat)
    (hk : k = (p - 1) * c + 1) : m ^ k ≡ m [MOD p] := by
  haveI : Fact p.Prime := ⟨hp⟩
  have hz : ((m ^ k : Nat) : ZMod p) = (m : ZMod p) := by
    push_cast
    by_cases hm : (m : ZMod p) = 0
    · rw [hm, hk, zero_pow (by omega : (p - 1) * c + 1 ≠ 0)]
    · rw [hk, pow_succ, pow_mul, ZMod.pow_card_sub_one_eq_one hm, one_pow, one_mul]
  exact (ZMod.natCast_eq_natCast_iff _ _ _).mp hz

/-- The RSA core identity: with `n = p·q` for distinct primes and an exponent
`≡ 1 mod (p-1)(q-1)`, `m^k ≡ m (mod n)` for every `m`. -/
lemma pow_modEq_pq (p q m k t : Nat) (hp : p.Prime) (hq : q.Prime) (hpq : p ≠ q)
    (hk : k = (p - 1) * (q - 1) * t + 1) : m ^ k ≡ m [MOD p * q] := by
  have h1 : m ^ k ≡ m [MOD p] := pow_modEq_prime p hp m ((q - 1) * t) k (by rw [hk]; ring)
  have h2 : m ^ k ≡ m [MOD q] := pow_modEq_prime q hq m ((p - 1) * t) k (by rw [hk]; ring)
  exact (Nat.modEq_and_modEq_iff_modEq_mul ((Nat.coprime_primes hp hq).mpr hpq)).mp ⟨h1, h2⟩

/-- The totient of `p·q` for distinct primes is at least 2 (needed to rule
`mod_inverse`'s degenerate `phi = 1` branch out). -/
lemma phi_two_le (p q : Nat) (hp : p.Prime) (hq : q.Prime) (hpq : p ≠ q) :
    2 ≤ (p - 1) * (q - 1) := by
  have hp2 := hp.two_le
  have hq2 := hq.two_le
  by_cases hp' : p = 2
  · subst hp'
    have hq3 : 3 ≤ q := by omega
    simpa using (by omega : 2 ≤ q - 1)
  · have hp3 : 3 ≤ p := by omega
    calc 2 = 2 * 1 := rfl
      _ ≤ (p - 1) * (q - 1) := Nat.mul_le_mul (by omega) (by omega)

/-- C1: every key pair `generate_rsa_keys` returns from two distinct sampled
primes satisfies the RSA round trip — for every symbol value `v < n`,
`decrypt_char (encrypt_char v e n) d n = v`. -/
theorem rsa_roundtrip (p q : Nat) (hp : p.Prime) (hq : q.Prime) (hpq : p ≠ q)
    (kp : KeyPair) (hgen : generate_rsa_keys p q = some kp) :
    ∀ v < kp.n, decrypt_char (encrypt_char v kp.e kp.n) kp.d kp.n = v := by
  simp only [generate_rsa_keys] at hgen
  cases hsel : select_e ((p - 1) * (q - 1)) with
  | none =>
    simp [hsel] at hgen
  | some e =>
    simp only [hsel] at hgen
    cases hinv : mod_inverse e ((p - 1) * (q - 1)) with
    | none =>
      simp [hinv] at hgen
    | some d =>
      simp only [hinv, Option.some.injEq] at hgen
      obtain rfl : KeyPair.mk e d.toNat (p * q) = kp := hgen
      intro v hv
      obtain ⟨hgcd, he2, _⟩ := select_e_some _ _ hsel
      have hphi2 : 2 ≤ (p - 1) * (q - 1) := phi_two_le p q hp hq hpq
      obtain ⟨hd0, hcong⟩ := mod_inverse_some_props e _ d (by omega) hphi2 hinv
      have hdn : ((d.toNat : Nat) : Int) = d := Int.toNat_of_nonneg hd0
      have hmodnat : e * d.toNat ≡ 1 [MOD (p - 1) * (q - 1)] := by
        have hcast : ((e * d.toNat : Nat) : Int) ≡ ((1 : Nat) : Int)
            [ZMOD (((p - 1) * (q - 1) : Nat) : Int)] := by
          push_cast
          rw [hdn]
          exact_mod_cast hcong
        exact Int.natCast_modEq_iff.mp hcast
      have hk1 : (e * d.toNat) % ((p - 1) * (q - 1)) = 1 := by
        have := hmodnat
        unfold Nat.ModEq at this
        rwa [Nat.mod_eq_of_lt (by omega : 1 < (p - 1) * (q - 1))] at this
      have hdm := Nat.div_add_mod (e * d.toNat) ((p - 1) * (q - 1))
      rw [hk1] at hdm
      have hpow : v ^ (e * d.toNat) ≡ v [MOD p * q] :=
        pow_modEq_pq p q v (e * d.toNat) ((e * d.toNat) / ((p - 1) * (q - 1))) hp hq hpq
          (by linarith [hdm])
      show (v ^ e % (p * q)) ^ d.toNat % (p * q) = v
      rw [← Nat.pow_mod, ← pow_mul]
      have hmod : v ^ (e * d.toNat) % (p * q) = v % (p * q) := hpow
      rw [hmod, Nat.mod_eq_of_lt hv]

/-- Witness for C1: the concrete primes 2 and 5 give the key pair
`e = 3, d = 3, n = 10`, and the symbol 7 survives the round trip. -/
theorem rsa_roundtrip_witness :
    generate_rsa_keys 2 5 = some ⟨3, 3, 10⟩ ∧
      decrypt_char (encrypt_char 7 3 10) 3 10 = 7 :=
  ⟨by decide,
    rsa_roundtrip 2 5 (by norm_num) (by norm_num) (by norm_num) ⟨3, 3, 10⟩ (by decide)
      7 (by norm_num)⟩

end ChatApp
